import Mathlib

/-!
A shallow embedding of the accelerator-model construction core of Merlin++
(src/Merlin++/AcceleratorModelConstructor.cpp).  Entities are identified by
numeric ids, modelling C++ object addresses; collaborating classes whose
definitions are not in the sources at hand (ElementRepository, SequenceFrame
traversal and geometry, ComponentFrame index storage) are modelled from the
spec and say so in their doc comments.  C++ operations with no defined
result (stack access on an empty stack, dereferencing a null model pointer,
component access on an occurrence carrying no component) are modelled as
Option-valued failure.
-/

namespace Merlin

/-- Identity of a model entity, modelling the C++ object address. -/
abbrev EntityId := Nat

/-- A node of the frame tree: either a component-occurrence (a ComponentFrame,
holding the identity of its carried component instance when it has one, and
its geometric length) or a sequence frame with identity, name and ordered
children. -/
inductive LatticeFrame : Type where
  | comp (cfId : EntityId) (component : Option EntityId) (clen : ℚ)
  | seq (fId : EntityId) (fname : String) (children : List LatticeFrame)

/-- A SequenceFrame: identity, name and ordered children.  Open frames on the
construction stack are of this shape. -/
structure SequenceFrame where
  fId : EntityId
  fname : String
  children : List LatticeFrame

/-- A ComponentFrame handed to AppendComponentFrame: the occurrence identity,
the identity of the carried component instance (none when the occurrence
carries no distinct instance), and its geometric length. -/
structure ComponentFrame where
  cfId : EntityId
  component : Option EntityId
  clen : ℚ

/-- ComponentFrame::IsComponent: whether the occurrence carries a component. -/
def ComponentFrame.IsComponent (cf : ComponentFrame) : Bool :=
  cf.component.isSome

/-- View of a ComponentFrame as a leaf of the frame tree. -/
def ComponentFrame.toTree (cf : ComponentFrame) : LatticeFrame :=
  LatticeFrame.comp cf.cfId cf.component cf.clen

/-- View of a SequenceFrame as a node of the frame tree. -/
def SequenceFrame.toTree (sf : SequenceFrame) : LatticeFrame :=
  LatticeFrame.seq sf.fId sf.fname sf.children

/-- Modelled from the spec: SequenceFrame::AppendFrame, the structural append
operation of the Frame Tree: the appended entity becomes the last child of
the frame. -/
def SequenceFrame.AppendFrame (parent : SequenceFrame) (child : LatticeFrame) : SequenceFrame :=
  { parent with children := parent.children ++ [child] }

/-- Modelled from the spec: ElementRepository::Add registers an entity in the
append-only Entity Registry, deduplicating by identity; re-adding an entity
that is already present is a silent no-op. -/
def ElementRepository.Add (repo : List EntityId) (e : EntityId) : List EntityId :=
  if e ∈ repo then repo else repo ++ [e]

/-- Folding ElementRepository::Add over a list of entities, in order. -/
def foldAdd : List EntityId → List EntityId → List EntityId
  | repo, [] => repo
  | repo, e :: t => foldAdd (ElementRepository.Add repo e) t

/-- Modelled from the spec: ComponentFrame::SetBeamlineIndex stores the given
beamline index on the occurrence; the mutable per-occurrence field is
modelled as a map from occurrence identity to the last index stored (an
occurrence that never had its index set has no entry). -/
def blSet (m : List (EntityId × Nat)) (e : EntityId) (n : Nat) : List (EntityId × Nat) :=
  (e, n) :: m

/-- Reads the stored beamline index of an occurrence; none when never set. -/
def blLookup : List (EntityId × Nat) → EntityId → Option Nat
  | [], _ => none
  | p :: t, e => if p.1 = e then some p.2 else blLookup t e

/-- The AcceleratorModel aggregate as seen by the constructor: the identity of
its global frame, the Entity Registry (theElements, in registration order),
the Flat Lattice of component-occurrence identities (in append order) and the
stored beamline indices. -/
structure AcceleratorModel where
  rootId : EntityId
  theElements : List EntityId
  lattice : List EntityId
  blMap : List (EntityId × Nat)
deriving DecidableEq

/-- The state of an AcceleratorModelConstructor: the model under construction
(none after GetModel handed it off) and the open-frame stack, head = top. -/
structure ConstructorState where
  currentModel : Option AcceleratorModel
  frameStack : List SequenceFrame

/-- MEExtractor::ActOn, translated from the source: the visited frame is
always added to the repository; when the dynamic cast to ComponentFrame
succeeds, the carried component is added (the component access is unguarded,
so visiting an occurrence that carries no component has no defined result,
modelled as none) and the occurrence is pushed onto the lattice; a plain
sequence frame is repository-only, which is not an error. -/
def MEExtractorActOn (repo lat : List EntityId) : LatticeFrame → Option (List EntityId × List EntityId)
  | LatticeFrame.seq fId _ _ => some (ElementRepository.Add repo fId, lat)
  | LatticeFrame.comp cfId c _ =>
    match c with
    | some comp => some (ElementRepository.Add (ElementRepository.Add repo cfId) comp, lat ++ [cfId])
    | none => none

mutual

/-- Modelled from the spec: SequenceFrame::Traverse runs the pre-order
Traversal Protocol: the traverser acts on the frame itself and then on each
child in stored order, recursing into sub-frames before later siblings.  Here
it is fused with the MEExtractor action used by AppendFrame, threading the
repository and the lattice. -/
def traverseME : LatticeFrame → List EntityId → List EntityId → Option (List EntityId × List EntityId)
  | LatticeFrame.comp cfId c q, repo, lat =>
    MEExtractorActOn repo lat (LatticeFrame.comp cfId c q)
  | LatticeFrame.seq fId nm cs, repo, lat =>
    match MEExtractorActOn repo lat (LatticeFrame.seq fId nm cs) with
    | none => none
    | some (r, l) => traverseMEList cs r l

/-- Traversal of a list of children, left to right, propagating failure. -/
def traverseMEList : List LatticeFrame → List EntityId → List EntityId → Option (List EntityId × List EntityId)
  | [], repo, lat => some (repo, lat)
  | f :: fs, repo, lat =>
    match traverseME f repo lat with
    | none => none
    | some (r, l) => traverseMEList fs r l

end

mutual

/-- Modelled from the spec: GetGeometryLength, the derived geometric length of
a frame: a component-occurrence contributes its own length, a sequence frame
the sum of the extents of its children. -/
def GetGeometryLength : LatticeFrame → ℚ
  | LatticeFrame.comp _ _ q => q
  | LatticeFrame.seq _ _ cs => geomLengthList cs

/-- Sum of the geometric lengths of a list of frames. -/
def geomLengthList : List LatticeFrame → ℚ
  | [] => 0
  | f :: fs => GetGeometryLength f + geomLengthList fs

end

/-- Modelled from the spec: SequenceFrame::ConsolidateConstruction fixes the
cumulative geometry of the frame so later structural queries are stable; it
does not change the structure itself. -/
def ConsolidateConstruction (f : LatticeFrame) : LatticeFrame := f

mutual

/-- The component-occurrences contained in a frame tree, in pre-order
(document) order, with their data. -/
def occFrames : LatticeFrame → List ComponentFrame
  | LatticeFrame.comp i c q => [⟨i, c, q⟩]
  | LatticeFrame.seq _ _ cs => occFramesList cs

/-- The component-occurrences of a list of frames, left to right. -/
def occFramesList : List LatticeFrame → List ComponentFrame
  | [] => []
  | f :: fs => occFrames f ++ occFramesList fs

end

/-- The identities of the component-occurrences of a frame tree, in pre-order. -/
def occList (f : LatticeFrame) : List EntityId :=
  (occFrames f).map ComponentFrame.cfId

/-- The identities of the component-occurrences of a list of frames. -/
def occListL (cs : List LatticeFrame) : List EntityId :=
  (occFramesList cs).map ComponentFrame.cfId

mutual

/-- Every entity of a frame tree in the order the traversal registers them:
for an occurrence its identity followed by its carried component (when
present), for a sequence frame its identity followed by its children's
entities. -/
def entityList : LatticeFrame → List EntityId
  | LatticeFrame.comp i c _ =>
    match c with
    | some comp => [i, comp]
    | none => [i]
  | LatticeFrame.seq i _ cs => i :: entityListL cs

/-- The entities of a list of frames, left to right. -/
def entityListL : List LatticeFrame → List EntityId
  | [] => []
  | f :: fs => entityList f ++ entityListL fs

end

mutual

/-- Whether every component-occurrence in a frame tree carries a component
instance (the condition under which the extraction traversal is defined). -/
def wellCarried : LatticeFrame → Bool
  | LatticeFrame.comp _ c _ => c.isSome
  | LatticeFrame.seq _ _ cs => wellCarriedList cs

/-- wellCarried for every frame of a list. -/
def wellCarriedList : List LatticeFrame → Bool
  | [] => true
  | f :: fs => wellCarried f && wellCarriedList fs

end

/-- AcceleratorModelConstructor::NewModel, translated from the source: when a
model is in progress it is discarded and the open-frame stack is drained;
then a fresh model is created with a fresh root SequenceFrame named GLOBAL,
recorded as the model's global frame and pushed onto the stack.  The fresh
root's identity is a parameter, modelling the address returned by new. -/
def NewModel (rootId : EntityId) (s : ConstructorState) : ConstructorState :=
  match s.currentModel with
  | some _ =>
    { currentModel := some { rootId := rootId, theElements := [], lattice := [], blMap := [] },
      frameStack := [{ fId := rootId, fname := "GLOBAL", children := [] }] }
  | none =>
    { currentModel := some { rootId := rootId, theElements := [], lattice := [], blMap := [] },
      frameStack := { fId := rootId, fname := "GLOBAL", children := [] } :: s.frameStack }

/-- The state of a freshly built AcceleratorModelConstructor, whose C++
constructor starts with a null model pointer and calls NewModel. -/
def initState (rootId : EntityId) : ConstructorState :=
  NewModel rootId { currentModel := none, frameStack := [] }

/-- The finished model handed back by GetModel: the consolidated global frame
tree, the Entity Registry, the Flat Lattice and the stored indices. -/
structure FinishedModel where
  globalFrame : LatticeFrame
  theElements : List EntityId
  lattice : List EntityId
  blMap : List (EntityId × Nat)

/-- AcceleratorModelConstructor::GetModel, translated from the source: pops
the stack (no defined result when it is empty), then asserts that a model is
in progress and that the stack is now empty; consolidates the global frame
(the sole stack entry just popped), hands the model off and clears the
internal model pointer. -/
def GetModel (s : ConstructorState) : Option (FinishedModel × ConstructorState) :=
  match s.frameStack with
  | [] => none
  | top :: rest =>
    match s.currentModel with
    | none => none
    | some m =>
      match rest with
      | [] =>
        some ({ globalFrame := ConsolidateConstruction top.toTree,
                theElements := m.theElements, lattice := m.lattice, blMap := m.blMap },
              { currentModel := none, frameStack := [] })
      | _ => none

/-- AcceleratorModelConstructor::NewFrame, translated from the source: asserts
a model is in progress, registers the frame in theElements and pushes it onto
the open-frame stack. -/
def NewFrame (aFrame : SequenceFrame) (s : ConstructorState) : Option ConstructorState :=
  match s.currentModel with
  | none => none
  | some m =>
    some { currentModel := some { m with theElements := ElementRepository.Add m.theElements aFrame.fId },
           frameStack := aFrame :: s.frameStack }

/-- AcceleratorModelConstructor::EndFrame, translated from the source: reads
and pops the top frame, then appends it as a child of the new top.  The stack
accesses have no defined result when the respective stack is empty, so fewer
than two open frames make the operation fail. -/
def EndFrame (s : ConstructorState) : Option ConstructorState :=
  match s.frameStack with
  | [] => none
  | cf :: rest =>
    match rest with
    | [] => none
    | top :: rest2 =>
      some { s with frameStack := SequenceFrame.AppendFrame top cf.toTree :: rest2 }

/-- AcceleratorModelConstructor::AppendComponentFrame, translated from the
source: asserts a model is in progress; registers the occurrence, and its
carried component when IsComponent holds; pushes the occurrence onto the
lattice; appends it as a child of the top frame (no defined result when the
stack is empty); finally stores lattice size minus one as the occurrence's
beamline index. -/
def AppendComponentFrame (cf : ComponentFrame) (s : ConstructorState) : Option ConstructorState :=
  match s.currentModel with
  | none => none
  | some m =>
    match s.frameStack with
    | [] => none
    | top :: rest =>
      let els1 := ElementRepository.Add m.theElements cf.cfId
      let els2 :=
        match cf.component with
        | some c => ElementRepository.Add els1 c
        | none => els1
      let lat := m.lattice ++ [cf.cfId]
      some { currentModel := some { m with theElements := els2, lattice := lat,
                                           blMap := blSet m.blMap cf.cfId (lat.length - 1) },
             frameStack := SequenceFrame.AppendFrame top cf.toTree :: rest }

/-- AcceleratorModelConstructor::AppendDrift, translated from the source:
builds a fresh Drift of the given length and a fresh component frame carrying
it, and appends the latter with AppendComponentFrame.  The identities of the
two fresh entities are parameters, modelling the addresses returned by new. -/
def AppendDrift (driftId cfId : EntityId) (d : ℚ) (s : ConstructorState) : Option ConstructorState :=
  AppendComponentFrame { cfId := cfId, component := some driftId, clen := d } s

/-- AcceleratorModelConstructor::AppendFrame, translated from the source:
asserts a model is in progress; runs the extraction traversal over the given
frame, updating theElements and the lattice; then appends the frame itself as
a single child of the top frame (no defined result when the stack is empty). -/
def AppendFrame (aFrame : SequenceFrame) (s : ConstructorState) : Option ConstructorState :=
  match s.currentModel with
  | none => none
  | some m =>
    match traverseME aFrame.toTree m.theElements m.lattice with
    | none => none
    | some (repo, lat) =>
      match s.frameStack with
      | [] => none
      | top :: rest =>
        some { currentModel := some { m with theElements := repo, lattice := lat },
               frameStack := SequenceFrame.AppendFrame top aFrame.toTree :: rest }

/-- AcceleratorModelConstructor::AddModelElement, translated from the source:
registers a standalone entity in theElements.  The model pointer is
dereferenced without any check, so the call has no defined result when no
model is in progress. -/
def AddModelElement (e : EntityId) (s : ConstructorState) : Option ConstructorState :=
  match s.currentModel with
  | none => none
  | some m =>
    some { s with currentModel := some { m with theElements := ElementRepository.Add m.theElements e } }

/-- AcceleratorModelConstructor::ReportStatistics, translated from the source:
read-only; reports the arc length of the global frame, the lattice size and
the registry size.  The model pointer is dereferenced without any check, so
the call has no defined result when no model is in progress.  The global
frame is the bottom entry of the open-frame stack (the per-type table of the
source is a grouping of the same registry and is not modelled, entities being
identified only by id here). -/
def ReportStatistics (s : ConstructorState) : Option (ℚ × Nat × Nat) :=
  match s.currentModel with
  | none => none
  | some m =>
    match s.frameStack.getLast? with
    | none => none
    | some root => some (GetGeometryLength root.toTree, m.lattice.length, m.theElements.length)

/-- A construction call, for reasoning about whole call sequences. -/
inductive Command : Type where
  | newFrame (sf : SequenceFrame)
  | endFrame
  | appendCF (cf : ComponentFrame)
  | appendDrift (driftId cfId : EntityId) (d : ℚ)
  | appendSub (sf : SequenceFrame)
  | addElement (e : EntityId)

/-- One construction call as a state transformer. -/
def runCmd : Command → ConstructorState → Option ConstructorState
  | Command.newFrame sf, s => NewFrame sf s
  | Command.endFrame, s => EndFrame s
  | Command.appendCF cf, s => AppendComponentFrame cf s
  | Command.appendDrift di ci d, s => AppendDrift di ci d s
  | Command.appendSub sf, s => AppendFrame sf s
  | Command.addElement e, s => AddModelElement e s

/-- Running a sequence of construction calls, propagating failure. -/
def runTrace : List Command → ConstructorState → Option ConstructorState
  | [], s => some s
  | c :: t, s =>
    match runCmd c s with
    | none => none
    | some s1 => runTrace t s1

/-- Number of NewFrame calls in a trace. -/
def opens : List Command → Nat
  | [] => 0
  | Command.newFrame _ :: t => opens t + 1
  | _ :: t => opens t

/-- Number of EndFrame calls in a trace. -/
def closes : List Command → Nat
  | [] => 0
  | Command.endFrame :: t => closes t + 1
  | _ :: t => closes t

/-- Whether a trace, run with the given open-frame stack depth, keeps at
least one frame beneath every EndFrame (the balance condition on prefixes). -/
def depthOk : Nat → List Command → Bool
  | _, [] => true
  | d, Command.newFrame _ :: t => depthOk (d + 1) t
  | d, Command.endFrame :: t => decide (2 ≤ d) && depthOk (d - 1) t
  | d, _ :: t => depthOk d t

/-- The open-frame stack depth after a trace, starting from the given depth. -/
def finalDepth : Nat → List Command → Nat
  | d, [] => d
  | d, Command.newFrame _ :: t => finalDepth (d + 1) t
  | d, Command.endFrame :: t => finalDepth (d - 1) t
  | d, _ :: t => finalDepth d t

/-- The total number of component-occurrences a trace appends to the lattice,
directly or through sub-frame extraction. -/
def totalOccs : List Command → Nat
  | [] => 0
  | Command.appendCF _ :: t => totalOccs t + 1
  | Command.appendDrift _ _ _ :: t => totalOccs t + 1
  | Command.appendSub sf :: t => totalOccs t + (occList sf.toTree).length
  | _ :: t => totalOccs t

/-- Whether every sub-frame appended by the trace is wellCarried. -/
def trWellCarried : List Command → Bool
  | [] => true
  | Command.appendSub sf :: t => wellCarried sf.toTree && trWellCarried t
  | _ :: t => trWellCarried t

/-- The identities of the occurrences a trace appends directly through
AppendComponentFrame (also via AppendDrift). -/
def directIds : List Command → List EntityId
  | [] => []
  | Command.appendCF cf :: t => cf.cfId :: directIds t
  | Command.appendDrift _ ci _ :: t => ci :: directIds t
  | _ :: t => directIds t

/-- A concrete pre-built sub-frame used as a witness input: two occurrences,
the second inside a nested plain frame. -/
def exampleSubframe : SequenceFrame :=
  ⟨1, "S", [LatticeFrame.comp 2 (some 3) 1,
            LatticeFrame.seq 4 ("T") [LatticeFrame.comp 5 (some 6) 2]]⟩

/-- The construction calls of the worked scenario of the spec: append a drift
of length 2 (entities 1 and 2), open frame F1 (entity 3), append a drift of
length 3/2 (entities 4 and 5), append the occurrence Q1 (entity 6) carrying
its quadrupole component (entity 7, length 0), close F1. -/
def scenarioTrace : List Command :=
  [Command.appendDrift 1 2 2,
   Command.newFrame ⟨3, "F1", []⟩,
   Command.appendDrift 4 5 (3 / 2),
   Command.appendCF ⟨6, some 7, 0⟩,
   Command.endFrame]

/-- The index bookkeeping invariant, relative to a set D of identities of
occurrences that were appended directly through AppendComponentFrame: every
such occurrence is in the lattice, and when it occupies exactly one lattice
slot its stored beamline index is that slot. -/
def InvBL (D : List EntityId) (s : ConstructorState) : Prop :=
  ∀ m, s.currentModel = some m →
    (∀ e, e ∈ D → e ∈ m.lattice) ∧
    (∀ e n, e ∈ D → m.lattice.get? n = some e → m.lattice.count e = 1 →
      blLookup m.blMap e = some n)

/-! Helper lemmas about the registry, the traversal and traces. -/

theorem Add_of_mem {repo : List EntityId} {e : EntityId} (h : e ∈ repo) :
    ElementRepository.Add repo e = repo := by
  simp [ElementRepository.Add, h]

theorem mem_Add_self (repo : List EntityId) (e : EntityId) :
    e ∈ ElementRepository.Add repo e := by
  by_cases h : e ∈ repo <;> simp [ElementRepository.Add, h]

theorem mem_Add_of_mem {repo : List EntityId} {x : EntityId} (e : EntityId) (h : x ∈ repo) :
    x ∈ ElementRepository.Add repo e := by
  by_cases he : e ∈ repo <;> simp [ElementRepository.Add, he, h]

theorem Add_nodup {repo : List EntityId} (h : repo.Nodup) (e : EntityId) :
    (ElementRepository.Add repo e).Nodup := by
  by_cases he : e ∈ repo
  · simpa [ElementRepository.Add, he] using h
  · simp [ElementRepository.Add, he, List.nodup_append, h]

theorem foldAdd_nodup : ∀ (es : List EntityId) {repo : List EntityId}, repo.Nodup →
    (foldAdd repo es).Nodup
  | [], _, h => h
  | e :: t, repo, h => foldAdd_nodup t (Add_nodup h e)

theorem foldAdd_append (a b : List EntityId) : ∀ (repo : List EntityId),
    foldAdd repo (a ++ b) = foldAdd (foldAdd repo a) b := by
  induction a with
  | nil => intro repo; rfl
  | cons e t ih => intro repo; simp [foldAdd, ih]

theorem occListL_cons (f : LatticeFrame) (fs : List LatticeFrame) :
    occListL (f :: fs) = occList f ++ occListL fs := by
  simp [occListL, occList, occFramesList]

theorem occList_seq (i : EntityId) (nm : String) (cs : List LatticeFrame) :
    occList (LatticeFrame.seq i nm cs) = occListL cs := by
  simp [occList, occFrames, occListL]

mutual

theorem traverseME_char : ∀ (f : LatticeFrame) (repo lat : List EntityId),
    (wellCarried f = true →
      traverseME f repo lat = some (foldAdd repo (entityList f), lat ++ occList f))
    ∧ (wellCarried f = false → traverseME f repo lat = none)
  | LatticeFrame.comp i c q, repo, lat => by
    cases c with
    | some comp =>
      refine ⟨fun _ => ?_, fun h => ?_⟩
      · simp [traverseME, MEExtractorActOn, entityList, occList, occFrames, foldAdd]
      · simp [wellCarried] at h
    | none =>
      refine ⟨fun h => ?_, fun _ => ?_⟩
      · simp [wellCarried] at h
      · simp [traverseME, MEExtractorActOn]
  | LatticeFrame.seq i nm cs, repo, lat => by
    have ih := traverseMEList_char cs (ElementRepository.Add repo i) lat
    refine ⟨fun h => ?_, fun h => ?_⟩
    · simp only [wellCarried] at h
      simp only [traverseME, MEExtractorActOn, ih.1 h, entityList, occList_seq, foldAdd]
    · simp only [wellCarried] at h
      simp only [traverseME, MEExtractorActOn, ih.2 h]

theorem traverseMEList_char : ∀ (cs : List LatticeFrame) (repo lat : List EntityId),
    (wellCarriedList cs = true →
      traverseMEList cs repo lat = some (foldAdd repo (entityListL cs), lat ++ occListL cs))
    ∧ (wellCarriedList cs = false → traverseMEList cs repo lat = none)
  | [], repo, lat => by
    refine ⟨fun _ => ?_, fun h => ?_⟩
    · simp [traverseMEList, foldAdd, occListL, occFramesList, entityListL]
    · simp [wellCarriedList] at h
  | f :: fs, repo, lat => by
    have ihf := traverseME_char f repo lat
    refine ⟨fun h => ?_, fun h => ?_⟩
    · simp only [wellCarriedList, Bool.and_eq_true] at h
      have ihs := traverseMEList_char fs (foldAdd repo (entityList f)) (lat ++ occList f)
      simp only [traverseMEList, ihf.1 h.1, ihs.1 h.2, entityListL, occListL_cons,
        foldAdd_append, List.append_assoc]
    · simp only [wellCarriedList, Bool.and_eq_false_iff] at h
      cases h with
      | inl hf =>
        simp only [traverseMEList, ihf.2 hf]
      | inr hs =>
        cases hw : wellCarried f with
        | false => simp only [traverseMEList, ihf.2 hw]
        | true =>
          have ihs := traverseMEList_char fs (foldAdd repo (entityList f)) (lat ++ occList f)
          simp only [traverseMEList, ihf.1 hw, ihs.2 hs]

end

theorem traverseME_some_eq {f : LatticeFrame} {repo lat : List EntityId}
    {p : List EntityId × List EntityId} (h : traverseME f repo lat = some p) :
    wellCarried f = true ∧ p = (foldAdd repo (entityList f), lat ++ occList f) := by
  cases hw : wellCarried f with
  | false =>
    rw [(traverseME_char f repo lat).2 hw] at h
    exact absurd h (by simp)
  | true =>
    refine ⟨rfl, ?_⟩
    rw [(traverseME_char f repo lat).1 hw] at h
    exact (Option.some.inj h).symm

theorem runTrace_append (a b : List Command) : ∀ (s : ConstructorState),
    runTrace (a ++ b) s = (runTrace a s).bind (runTrace b) := by
  induction a with
  | nil => intro s; rfl
  | cons c t ih =>
    intro s
    simp only [List.cons_append, runTrace]
    cases runCmd c s with
    | none => rfl
    | some s1 => exact ih s1

theorem opens_cons (c : Command) (t : List Command) : opens (c :: t) = opens [c] + opens t := by
  cases c <;> simp [opens] <;> omega

theorem closes_cons (c : Command) (t : List Command) : closes (c :: t) = closes [c] + closes t := by
  cases c <;> simp [closes] <;> omega

theorem runCmd_stack_shape {c : Command} {s0 s1 : ConstructorState} (h : runCmd c s0 = some s1) :
    (opens [c] = 1 ∧ closes [c] = 0 ∧ s1.frameStack.length = s0.frameStack.length + 1)
    ∨ (opens [c] = 0 ∧ closes [c] = 1 ∧ 2 ≤ s0.frameStack.length
        ∧ s1.frameStack.length + 1 = s0.frameStack.length)
    ∨ (opens [c] = 0 ∧ closes [c] = 0 ∧ s1.frameStack.length = s0.frameStack.length) := by
  cases c with
  | newFrame sf =>
    left
    cases hm : s0.currentModel with
    | none => simp [runCmd, NewFrame, hm] at h
    | some m =>
      simp only [runCmd, NewFrame, hm] at h
      cases h
      simp [opens, closes]
  | endFrame =>
    right; left
    cases hs : s0.frameStack with
    | nil => simp [runCmd, EndFrame, hs] at h
    | cons cf rest =>
      cases rest with
      | nil => simp [runCmd, EndFrame, hs] at h
      | cons top rest2 =>
        simp only [runCmd, EndFrame, hs] at h
        cases h
        simp [opens, closes, hs]
  | appendCF cf =>
    right; right
    cases hm : s0.currentModel with
    | none => simp [runCmd, AppendComponentFrame, hm] at h
    | some m =>
      cases hs : s0.frameStack with
      | nil => simp [runCmd, AppendComponentFrame, hm, hs] at h
      | cons top rest =>
        simp only [runCmd, AppendComponentFrame, hm, hs] at h
        cases h
        simp [opens, closes, hs]
  | appendDrift di ci d =>
    right; right
    cases hm : s0.currentModel with
    | none => simp [runCmd, AppendDrift, AppendComponentFrame, hm] at h
    | some m =>
      cases hs : s0.frameStack with
      | nil => simp [runCmd, AppendDrift, AppendComponentFrame, hm, hs] at h
      | cons top rest =>
        simp only [runCmd, AppendDrift, AppendComponentFrame, hm, hs] at h
        cases h
        simp [opens, closes, hs]
  | appendSub sf =>
    right; right
    cases hm : s0.currentModel with
    | none => simp [runCmd, AppendFrame, hm] at h
    | some m =>
      cases ht : traverseME sf.toTree m.theElements m.lattice with
      | none => simp [runCmd, AppendFrame, hm, ht] at h
      | some p =>
        cases hs : s0.frameStack with
        | nil => simp [runCmd, AppendFrame, hm, ht, hs] at h
        | cons top rest =>
          simp only [runCmd, AppendFrame, hm, ht, hs] at h
          cases h
          simp [opens, closes, hs]
  | addElement e =>
    right; right
    cases hm : s0.currentModel with
    | none => simp [runCmd, AddModelElement, hm] at h
    | some m =>
      simp only [runCmd, AddModelElement, hm] at h
      cases h
      simp [opens, closes]

theorem runTrace_stack_eq : ∀ (tr : List Command) (s0 s : ConstructorState),
    runTrace tr s0 = some s →
    s.frameStack.length + closes tr = s0.frameStack.length + opens tr
      ∧ (1 ≤ s0.frameStack.length → 1 ≤ s.frameStack.length) := by
  intro tr
  induction tr with
  | nil =>
    intro s0 s h
    cases h
    simp [opens, closes]
  | cons c t ih =>
    intro s0 s h
    simp only [runTrace] at h
    cases hc : runCmd c s0 with
    | none => rw [hc] at h; exact absurd h (by simp)
    | some s1 =>
      rw [hc] at h
      have hstep := runCmd_stack_shape hc
      have hrest := ih s1 s h
      rw [opens_cons, closes_cons]
      rcases hstep with ⟨h1, h2, h3⟩ | ⟨h1, h2, h3, h4⟩ | ⟨h1, h2, h3⟩ <;> omega

theorem run_balanced_aux : ∀ (tr : List Command) (s : ConstructorState) (m : AcceleratorModel),
    s.currentModel = some m → 1 ≤ s.frameStack.length →
    depthOk s.frameStack.length tr = true → trWellCarried tr = true →
    ∃ s1 m1, runTrace tr s = some s1 ∧ s1.currentModel = some m1
      ∧ s1.frameStack.length = finalDepth s.frameStack.length tr
      ∧ m1.lattice.length = m.lattice.length + totalOccs tr := by
  intro tr
  induction tr with
  | nil =>
    intro s m hm _ _ _
    exact ⟨s, m, rfl, hm, rfl, by simp [totalOccs]⟩
  | cons c t ih =>
    intro s m hm hd hok hwc
    cases c with
    | newFrame sf =>
      simp only [depthOk] at hok
      simp only [trWellCarried] at hwc
      set m1 : AcceleratorModel :=
        { m with theElements := ElementRepository.Add m.theElements sf.fId } with hm1
      set st1 : ConstructorState :=
        { currentModel := some m1, frameStack := sf :: s.frameStack } with hst1
      have hstep : runCmd (Command.newFrame sf) s = some st1 := by
        simp [runCmd, NewFrame, hm, hst1, hm1]
      obtain ⟨s2, m2, hrun, hm2, hlen, hlat⟩ :=
        ih st1 m1 rfl (by simp [hst1]) (by simpa [hst1] using hok) hwc
      refine ⟨s2, m2, ?_, hm2, ?_, ?_⟩
      · simp only [runTrace, hstep]
        exact hrun
      · rw [hlen]
        simp [hst1, finalDepth]
      · rw [hlat]
        simp [hm1, totalOccs]
    | endFrame =>
      simp only [depthOk, Bool.and_eq_true, decide_eq_true_eq] at hok
      obtain ⟨hd2, hok⟩ := hok
      simp only [trWellCarried] at hwc
      cases hs : s.frameStack with
      | nil => rw [hs] at hd2; simp at hd2
      | cons cf rest =>
        cases rest with
        | nil => rw [hs] at hd2; simp at hd2
        | cons top rest2 =>
          rw [hs] at hok
          set st1 : ConstructorState :=
            { s with frameStack := SequenceFrame.AppendFrame top cf.toTree :: rest2 } with hst1
          have hstep : runCmd Command.endFrame s = some st1 := by
            simp [runCmd, EndFrame, hs, hst1]
          obtain ⟨s2, m2, hrun, hm2, hlen, hlat⟩ :=
            ih st1 m (by simp [hst1, hm]) (by simp [hst1]) (by simpa [hst1] using hok) hwc
          refine ⟨s2, m2, ?_, hm2, ?_, ?_⟩
          · simp only [runTrace, hstep]
            exact hrun
          · rw [hlen]
            simp [hst1, finalDepth]
          · rw [hlat]
            simp [totalOccs]
    | appendCF cf =>
      simp only [depthOk] at hok
      simp only [trWellCarried] at hwc
      cases hs : s.frameStack with
      | nil => rw [hs] at hd; simp at hd
      | cons top rest =>
        rw [hs] at hok
        set m1 : AcceleratorModel :=
          { m with
            theElements :=
              match cf.component with
              | some c => ElementRepository.Add (ElementRepository.Add m.theElements cf.cfId) c
              | none => ElementRepository.Add m.theElements cf.cfId,
            lattice := m.lattice ++ [cf.cfId],
            blMap := blSet m.blMap cf.cfId ((m.lattice ++ [cf.cfId]).length - 1) } with hm1
        set st1 : ConstructorState :=
          { currentModel := some m1,
            frameStack := SequenceFrame.AppendFrame top cf.toTree :: rest } with hst1
        have hstep : runCmd (Command.appendCF cf) s = some st1 := by
          simp only [runCmd, AppendComponentFrame, hm, hs, hst1, hm1]
        obtain ⟨s2, m2, hrun, hm2, hlen, hlat⟩ :=
          ih st1 m1 rfl (by simp [hst1]) (by simpa [hst1] using hok) hwc
        refine ⟨s2, m2, ?_, hm2, ?_, ?_⟩
        · simp only [runTrace, hstep]
          exact hrun
        · rw [hlen]
          simp [hst1, finalDepth]
        · rw [hlat]
          simp only [totalOccs, hm1]
          simp
          omega
    | appendDrift di ci d =>
      simp only [depthOk] at hok
      simp only [trWellCarried] at hwc
      cases hs : s.frameStack with
      | nil => rw [hs] at hd; simp at hd
      | cons top rest =>
        rw [hs] at hok
        set m1 : AcceleratorModel :=
          { m with
            theElements := ElementRepository.Add (ElementRepository.Add m.theElements ci) di,
            lattice := m.lattice ++ [ci],
            blMap := blSet m.blMap ci ((m.lattice ++ [ci]).length - 1) } with hm1
        set st1 : ConstructorState :=
          { currentModel := some m1,
            frameStack := SequenceFrame.AppendFrame top
              (ComponentFrame.toTree { cfId := ci, component := some di, clen := d }) :: rest } with hst1
        have hstep : runCmd (Command.appendDrift di ci d) s = some st1 := by
          simp only [runCmd, AppendDrift, AppendComponentFrame, hm, hs, hst1, hm1]
        obtain ⟨s2, m2, hrun, hm2, hlen, hlat⟩ :=
          ih st1 m1 rfl (by simp [hst1]) (by simpa [hst1] using hok) hwc
        refine ⟨s2, m2, ?_, hm2, ?_, ?_⟩
        · simp only [runTrace, hstep]
          exact hrun
        · rw [hlen]
          simp [hst1, finalDepth]
        · rw [hlat]
          simp only [totalOccs, hm1]
          simp
          omega
    | appendSub sf =>
      simp only [depthOk] at hok
      simp only [trWellCarried, Bool.and_eq_true] at hwc
      obtain ⟨hwcf, hwct⟩ := hwc
      cases hs : s.frameStack with
      | nil => rw [hs] at hd; simp at hd
      | cons top rest =>
        rw [hs] at hok
        have htr := (traverseME_char sf.toTree m.theElements m.lattice).1 hwcf
        set m1 : AcceleratorModel :=
          { m with theElements := foldAdd m.theElements (entityList sf.toTree),
                   lattice := m.lattice ++ occList sf.toTree } with hm1
        set st1 : ConstructorState :=
          { currentModel := some m1,
            frameStack := SequenceFrame.AppendFrame top sf.toTree :: rest } with hst1
        have hstep : runCmd (Command.appendSub sf) s = some st1 := by
          simp only [runCmd, AppendFrame, hm, hs, htr, hst1, hm1]
        obtain ⟨s2, m2, hrun, hm2, hlen, hlat⟩ :=
          ih st1 m1 rfl (by simp [hst1]) (by simpa [hst1] using hok) hwct
        refine ⟨s2, m2, ?_, hm2, ?_, ?_⟩
        · simp only [runTrace, hstep]
          exact hrun
        · rw [hlen]
          simp [hst1, finalDepth]
        · rw [hlat]
          simp only [totalOccs, hm1]
          simp
          omega
    | addElement e =>
      simp only [depthOk] at hok
      simp only [trWellCarried] at hwc
      set m1 : AcceleratorModel :=
        { m with theElements := ElementRepository.Add m.theElements e } with hm1
      set st1 : ConstructorState := { s with currentModel := some m1 } with hst1
      have hstep : runCmd (Command.addElement e) s = some st1 := by
        simp [runCmd, AddModelElement, hm, hst1, hm1]
      obtain ⟨s2, m2, hrun, hm2, hlen, hlat⟩ :=
        ih st1 m1 rfl (by simpa [hst1] using hd) (by simpa [hst1] using hok) hwc
      refine ⟨s2, m2, ?_, hm2, ?_, ?_⟩
      · simp only [runTrace, hstep]
        exact hrun
      · rw [hlen]
        simp [hst1, finalDepth]
      · rw [hlat]
        simp [hm1, totalOccs]

/-- Claim C2: for every correctly balanced sequence of NewFrame, append and
EndFrame calls (every EndFrame keeps a frame beneath it and the final depth
is back to the root alone), with every appended sub-frame wellCarried,
GetModel succeeds and the finished model's Flat Lattice length equals the
total number of component-occurrences appended, directly or via AppendFrame,
regardless of nesting depth. -/
theorem balanced_trace_getModel (tr : List Command) (r : EntityId)
    (hok : depthOk 1 tr = true) (hfd : finalDepth 1 tr = 1)
    (hwc : trWellCarried tr = true) :
    ∃ s fm s2, runTrace tr (initState r) = some s ∧ GetModel s = some (fm, s2)
      ∧ fm.lattice.length = totalOccs tr := by
  have hm : (initState r).currentModel =
      some { rootId := r, theElements := [], lattice := [], blMap := [] } := rfl
  have hlen1 : (initState r).frameStack.length = 1 := rfl
  obtain ⟨s1, m1, hrun, hm1, hlen, hlat⟩ :=
    run_balanced_aux tr (initState r) _ hm (by rw [hlen1]) (by rwa [hlen1]) hwc
  rw [hlen1, hfd] at hlen
  cases hs : s1.frameStack with
  | nil => rw [hs] at hlen; simp at hlen
  | cons top rest =>
    cases rest with
    | cons a b => rw [hs] at hlen; simp at hlen
    | nil =>
      refine ⟨s1,
        { globalFrame := ConsolidateConstruction top.toTree,
          theElements := m1.theElements, lattice := m1.lattice, blMap := m1.blMap },
        { currentModel := none, frameStack := [] }, hrun, ?_, ?_⟩
      · simp [GetModel, hs, hm1]
      · simpa using hlat

/-- Witness for C2: a concrete balanced nested construction of one open frame
holding one occurrence runs to completion with a one-entry lattice. -/
theorem balanced_trace_getModel_witness :
    ∃ s fm s2,
      runTrace [Command.newFrame ⟨1, "F1", []⟩, Command.appendCF ⟨2, some 3, 1⟩,
        Command.endFrame] (initState 0) = some s
      ∧ GetModel s = some (fm, s2)
      ∧ fm.lattice.length = totalOccs [Command.newFrame ⟨1, "F1", []⟩,
          Command.appendCF ⟨2, some 3, 1⟩, Command.endFrame] :=
  balanced_trace_getModel
    [Command.newFrame ⟨1, "F1", []⟩, Command.appendCF ⟨2, some 3, 1⟩, Command.endFrame]
    0 (by decide) (by decide) (by decide)

/-- Claim C3: a trace some prefix of which calls EndFrame more times than
NewFrame was called (a stack underflow) never runs to a result: the run
fails.  In the embedding the undefined stack access of the source's EndFrame
on a stack holding the root alone is failure, so underflow can never be a
silent success. -/
theorem endFrame_underflow_fails (tr : List Command) (i : Nat) (r : EntityId)
    (h : opens (List.take i tr) < closes (List.take i tr)) :
    runTrace tr (initState r) = none := by
  cases hrun : runTrace tr (initState r) with
  | none => rfl
  | some s =>
    exfalso
    have hsplit : runTrace (List.take i tr ++ List.drop i tr) (initState r) = some s := by
      rw [List.take_append_drop]
      exact hrun
    rw [runTrace_append] at hsplit
    cases hpre : runTrace (List.take i tr) (initState r) with
    | none =>
      rw [hpre] at hsplit
      exact absurd hsplit (by simp)
    | some sp =>
      have hst := runTrace_stack_eq (List.take i tr) (initState r) sp hpre
      have hinit : (initState r).frameStack.length = 1 := rfl
      have h1 : 1 ≤ sp.frameStack.length := hst.2 (by rw [hinit])
      have h2 := hst.1
      rw [hinit] at h2
      omega

/-- Witness for C3: one EndFrame with no preceding NewFrame fails. -/
theorem endFrame_underflow_fails_witness :
    runTrace [Command.endFrame] (initState 0) = none :=
  endFrame_underflow_fails [Command.endFrame] 1 0 (by decide)

/-- Claim C4: GetModel with exactly the root frame open pops it, consolidates
its geometry, hands the finished model off and clears the internal model
pointer and stack; GetModel with more than the root open fails, as does
GetModel with no model in progress. -/
theorem getModel_root_only (s : ConstructorState) :
    (∀ m top, s.currentModel = some m → s.frameStack = [top] →
      GetModel s = some ({ globalFrame := ConsolidateConstruction top.toTree,
                           theElements := m.theElements, lattice := m.lattice,
                           blMap := m.blMap },
                         { currentModel := none, frameStack := [] }))
    ∧ (2 ≤ s.frameStack.length → GetModel s = none)
    ∧ (s.currentModel = none → GetModel s = none) := by
  refine ⟨?_, ?_, ?_⟩
  · intro m top hm hs
    simp [GetModel, hs, hm]
  · intro h2
    cases hs : s.frameStack with
    | nil => simp [GetModel, hs]
    | cons top rest =>
      cases rest with
      | nil => rw [hs] at h2; simp at h2
      | cons a b =>
        cases hm : s.currentModel with
        | none => simp [GetModel, hs, hm]
        | some m => simp [GetModel, hs, hm]
  · intro hm
    cases hs : s.frameStack with
    | nil => simp [GetModel, hs]
    | cons top rest => simp [GetModel, hs, hm]

/-- Witness for C4: GetModel on the fresh constructor returns the empty model
with the consolidated GLOBAL frame and a cleared state; on a two-deep stack
and on a cleared state it fails. -/
theorem getModel_root_only_witness :
    GetModel (initState 0) =
      some ({ globalFrame := ConsolidateConstruction (SequenceFrame.toTree ⟨0, "GLOBAL", []⟩),
              theElements := [], lattice := [], blMap := [] },
            { currentModel := none, frameStack := [] })
    ∧ GetModel { currentModel := some { rootId := 0, theElements := [], lattice := [], blMap := [] },
                 frameStack := [⟨1, "A", []⟩, ⟨0, "GLOBAL", []⟩] } = none
    ∧ GetModel { currentModel := none, frameStack := [] } = none :=
  ⟨(getModel_root_only (initState 0)).1
      { rootId := 0, theElements := [], lattice := [], blMap := [] } ⟨0, "GLOBAL", []⟩ rfl rfl,
   (getModel_root_only _).2.1 (by simp),
   (getModel_root_only _).2.2 rfl⟩

theorem blLookup_blSet_self (mp : List (EntityId × Nat)) (e : EntityId) (n : Nat) :
    blLookup (blSet mp e n) e = some n := by
  simp [blSet, blLookup]

theorem blLookup_blSet_ne (mp : List (EntityId × Nat)) {e x : EntityId} (h : x ≠ e) (n : Nat) :
    blLookup (blSet mp e n) x = blLookup mp x := by
  simp [blSet, blLookup, Ne.symm h]

theorem directIds_cons (c : Command) (t : List Command) :
    directIds (c :: t) = directIds [c] ++ directIds t := by
  cases c <;> simp [directIds]

theorem invBL_AppendComponentFrame {cf : ComponentFrame} {s0 s1 : ConstructorState}
    {D : List EntityId} (h : AppendComponentFrame cf s0 = some s1) (hI : InvBL D s0) :
    InvBL (D ++ [cf.cfId]) s1 := by
  cases hm : s0.currentModel with
  | none => simp [AppendComponentFrame, hm] at h
  | some m =>
    cases hs : s0.frameStack with
    | nil => simp [AppendComponentFrame, hm, hs] at h
    | cons top rest =>
      simp only [AppendComponentFrame, hm, hs] at h
      cases h
      intro m1 hm1
      cases hm1
      obtain ⟨h1, h2⟩ := hI m hm
      constructor
      · intro e he
        simp only
        rcases List.mem_append.1 he with heD | heC
        · exact List.mem_append_left _ (h1 e heD)
        · simp only [List.mem_singleton] at heC
          subst heC
          exact List.mem_append_right _ (by simp)
      · intro e n he hg hc
        simp only at hg hc ⊢
        have hlen : (m.lattice ++ [cf.cfId]).length - 1 = m.lattice.length := by simp
        rw [hlen]
        by_cases hea : e = cf.cfId
        · subst hea
          have hcnt : m.lattice.count cf.cfId = 0 := by
            rw [List.count_append] at hc
            simp at hc
            exact hc
          have hnotin : cf.cfId ∉ m.lattice := List.count_eq_zero.1 hcnt
          have hn_lt : n < m.lattice.length + 1 := by
            have hx := (List.get?_eq_some.1 hg).1
            simpa using hx
          have hn_eq : n = m.lattice.length := by
            rcases Nat.lt_succ_iff_lt_or_eq.1 hn_lt with hlt | heq
            · exfalso
              rw [List.get?_append hlt] at hg
              exact hnotin (List.get?_mem hg)
            · exact heq
          subst hn_eq
          exact blLookup_blSet_self m.blMap cf.cfId m.lattice.length
        · have heD : e ∈ D := by
            rcases List.mem_append.1 he with h | h
            · exact h
            · simp only [List.mem_singleton] at h
              exact absurd h hea
          have hn_lt : n < m.lattice.length := by
            have hx := (List.get?_eq_some.1 hg).1
            simp only [List.length_append, List.length_singleton] at hx
            rcases Nat.lt_succ_iff_lt_or_eq.1 hx with hlt | heq
            · exact hlt
            · exfalso
              subst heq
              rw [List.get?_append_right (le_refl _)] at hg
              simp at hg
              exact hea hg.symm
          have hcl : m.lattice.count e = 1 := by
            rw [List.count_append] at hc
            simpa [hea] using hc
          rw [List.get?_append hn_lt] at hg
          rw [blLookup_blSet_ne m.blMap hea]
          exact h2 e n heD hg hcl

theorem invBL_step {c : Command} {s0 s1 : ConstructorState} {D : List EntityId}
    (h : runCmd c s0 = some s1) (hI : InvBL D s0) : InvBL (D ++ directIds [c]) s1 := by
  cases c with
  | newFrame sf =>
    cases hm : s0.currentModel with
    | none => simp [runCmd, NewFrame, hm] at h
    | some m =>
      simp only [runCmd, NewFrame, hm] at h
      cases h
      intro m1 hm1
      cases hm1
      obtain ⟨h1, h2⟩ := hI m hm
      refine ⟨fun e he => h1 e (by simpa [directIds] using he), ?_⟩
      intro e n he hg hc
      exact h2 e n (by simpa [directIds] using he) hg hc
  | endFrame =>
    cases hs : s0.frameStack with
    | nil => simp [runCmd, EndFrame, hs] at h
    | cons cf rest =>
      cases rest with
      | nil => simp [runCmd, EndFrame, hs] at h
      | cons top rest2 =>
        simp only [runCmd, EndFrame, hs] at h
        cases h
        intro m1 hm1
        obtain ⟨h1, h2⟩ := hI m1 hm1
        refine ⟨fun e he => h1 e (by simpa [directIds] using he), ?_⟩
        intro e n he hg hc
        exact h2 e n (by simpa [directIds] using he) hg hc
  | appendCF cf =>
    simp only [runCmd] at h
    have := invBL_AppendComponentFrame h hI
    simpa [directIds] using this
  | appendDrift di ci d =>
    simp only [runCmd, AppendDrift] at h
    have := invBL_AppendComponentFrame h hI
    simpa [directIds] using this
  | appendSub sf =>
    cases hm : s0.currentModel with
    | none => simp [runCmd, AppendFrame, hm] at h
    | some m =>
      cases ht : traverseME sf.toTree m.theElements m.lattice with
      | none => simp [runCmd, AppendFrame, hm, ht] at h
      | some p =>
        cases hs : s0.frameStack with
        | nil => simp [runCmd, AppendFrame, hm, ht, hs] at h
        | cons top rest =>
          obtain ⟨hwc, hp⟩ := traverseME_some_eq ht
          subst hp
          simp only [runCmd, AppendFrame, hm, ht, hs] at h
          cases h
          intro m1 hm1
          cases hm1
          obtain ⟨h1, h2⟩ := hI m hm
          constructor
          · intro e he
            simp only
            exact List.mem_append_left _ (h1 e (by simpa [directIds] using he))
          · intro e n he hg hc
            simp only at hg hc ⊢
            have heD : e ∈ D := by simpa [directIds] using he
            have hel : e ∈ m.lattice := h1 e heD
            have hpos : 0 < m.lattice.count e := List.count_pos_iff_mem.2 hel
            rw [List.count_append] at hc
            have hocc : (occList sf.toTree).count e = 0 := by omega
            have hcl : m.lattice.count e = 1 := by omega
            have henot : e ∉ occList sf.toTree := List.count_eq_zero.1 hocc
            have hn_lt : n < m.lattice.length := by
              by_contra hge
              push_neg at hge
              rw [List.get?_append_right hge] at hg
              exact henot (List.get?_mem hg)
            rw [List.get?_append hn_lt] at hg
            exact h2 e n heD hg hcl
  | addElement a =>
    cases hm : s0.currentModel with
    | none => simp [runCmd, AddModelElement, hm] at h
    | some m =>
      simp only [runCmd, AddModelElement, hm] at h
      cases h
      intro m1 hm1
      cases hm1
      obtain ⟨h1, h2⟩ := hI m hm
      refine ⟨fun e he => h1 e (by simpa [directIds] using he), ?_⟩
      intro e n he hg hc
      exact h2 e n (by simpa [directIds] using he) hg hc

theorem invBL_run : ∀ (tr : List Command) (s0 s1 : ConstructorState) (D : List EntityId),
    runTrace tr s0 = some s1 → InvBL D s0 → InvBL (D ++ directIds tr) s1 := by
  intro tr
  induction tr with
  | nil =>
    intro s0 s1 D h hI
    cases h
    simpa [directIds] using hI
  | cons c t ih =>
    intro s0 s1 D h hI
    simp only [runTrace] at h
    cases hc : runCmd c s0 with
    | none => rw [hc] at h; exact absurd h (by simp)
    | some s2 =>
      rw [hc] at h
      have hstep := invBL_step hc hI
      have := ih s2 s1 (D ++ directIds [c]) h hstep
      rw [directIds_cons]
      simpa [List.append_assoc] using this

/-- Claim C1 (amended): in every construction run, an occurrence that was
appended directly through AppendComponentFrame (also via AppendDrift) and
occupies one lattice slot (its identity appears once) has its stored beamline
index equal to its zero-based lattice position, and it is never renumbered
afterwards; occurrences that entered the lattice only through AppendFrame's
traversal do not have their stored index set. -/
theorem direct_append_index (tr : List Command) (r : EntityId) (s : ConstructorState)
    (m : AcceleratorModel) (n : Nat) (e : EntityId)
    (hrun : runTrace tr (initState r) = some s) (hm : s.currentModel = some m)
    (hnd : m.lattice.Nodup) (he : e ∈ directIds tr) (hn : m.lattice.get? n = some e) :
    blLookup m.blMap e = some n := by
  have hI0 : InvBL [] (initState r) := by
    intro m0 hm0
    exact ⟨fun x hx => absurd hx (List.not_mem_nil x),
           fun x k hx hg hc => absurd hx (List.not_mem_nil x)⟩
  have hI := invBL_run tr (initState r) s [] hrun hI0
  have hmem : e ∈ m.lattice := List.get?_mem hn
  have hcnt : m.lattice.count e = 1 := List.count_eq_one_of_mem hnd hmem
  exact (hI m hm).2 e n (by simpa using he) hn hcnt

/-- Counterexample to C1 as stated: appending a sub-frame holding one
occurrence (identity 2, carrying component 3) puts the occurrence at lattice
position 0, but its stored beamline index is never set, so it does not equal
its position at insertion. -/
theorem direct_append_index_counterexample :
    (runTrace [Command.appendSub ⟨1, "S", [LatticeFrame.comp 2 (some 3) 1]⟩]
        (initState 0)).bind
      (fun s => s.currentModel.map (fun m => (m.lattice, blLookup m.blMap 2)))
    = some ([2], none) := by
  decide

/-- Witness for C1: two direct appends (identities 5 then 7) end with the
second occurrence stored at index 1, its lattice position. -/
theorem direct_append_index_witness :
    blLookup [(7, 1), (5, 0)] 7 = some 1 :=
  direct_append_index
    [Command.appendCF ⟨5, some 6, 1⟩, Command.appendCF ⟨7, none, 2⟩] 0
    { currentModel := some { rootId := 0, theElements := [5, 6, 7],
                             lattice := [5, 7], blMap := [(7, 1), (5, 0)] },
      frameStack := [⟨0, "GLOBAL",
        [LatticeFrame.comp 5 (some 6) 1, LatticeFrame.comp 7 none 2]⟩] }
    { rootId := 0, theElements := [5, 6, 7], lattice := [5, 7], blMap := [(7, 1), (5, 0)] }
    1 7 rfl rfl (by decide) (by decide) (by decide)

theorem replay_appendCF : ∀ (cfs : List ComponentFrame) (s : ConstructorState)
    (m : AcceleratorModel), s.currentModel = some m → 1 ≤ s.frameStack.length →
    ∃ s2 m2, runTrace (cfs.map Command.appendCF) s = some s2 ∧ s2.currentModel = some m2
      ∧ m2.lattice = m.lattice ++ cfs.map ComponentFrame.cfId := by
  intro cfs
  induction cfs with
  | nil =>
    intro s m hm _
    exact ⟨s, m, rfl, hm, by simp⟩
  | cons cf t ih =>
    intro s m hm hd
    cases hs : s.frameStack with
    | nil => rw [hs] at hd; simp at hd
    | cons top rest =>
      set m1 : AcceleratorModel :=
        { m with
          theElements :=
            match cf.component with
            | some c => ElementRepository.Add (ElementRepository.Add m.theElements cf.cfId) c
            | none => ElementRepository.Add m.theElements cf.cfId,
          lattice := m.lattice ++ [cf.cfId],
          blMap := blSet m.blMap cf.cfId ((m.lattice ++ [cf.cfId]).length - 1) } with hm1
      set st1 : ConstructorState :=
        { currentModel := some m1,
          frameStack := SequenceFrame.AppendFrame top cf.toTree :: rest } with hst1
      have hstep : runCmd (Command.appendCF cf) s = some st1 := by
        simp only [runCmd, AppendComponentFrame, hm, hs, hst1, hm1]
      obtain ⟨s2, m2, hrun, hm2, hlat⟩ := ih st1 m1 rfl (by simp [hst1])
      refine ⟨s2, m2, ?_, hm2, ?_⟩
      · simp only [List.map_cons, runTrace, hstep]
        exact hrun
      · rw [hlat]
        simp [hm1]

/-- Claim C5: AppendFrame on a wellCarried sub-frame containing K occurrences
produces exactly the Flat Lattice obtained by replaying those K occurrences,
in pre-order, with direct AppendComponentFrame calls (same order and count),
and additionally appends the sub-frame as a single child of the current top
frame. -/
theorem appendFrame_refines_replay (s : ConstructorState) (m : AcceleratorModel)
    (top : SequenceFrame) (rest : List SequenceFrame) (sf : SequenceFrame)
    (hm : s.currentModel = some m) (hs : s.frameStack = top :: rest)
    (hw : wellCarried sf.toTree = true) :
    ∃ s1 m1 s2 m2,
      AppendFrame sf s = some s1 ∧ s1.currentModel = some m1
      ∧ runTrace ((occFrames sf.toTree).map Command.appendCF) s = some s2
      ∧ s2.currentModel = some m2
      ∧ m1.lattice = m.lattice ++ occList sf.toTree
      ∧ m2.lattice = m1.lattice
      ∧ s1.frameStack = SequenceFrame.AppendFrame top sf.toTree :: rest := by
  have htr := (traverseME_char sf.toTree m.theElements m.lattice).1 hw
  obtain ⟨s2, m2, hrun2, hm2, hlat2⟩ :=
    replay_appendCF (occFrames sf.toTree) s m hm (by rw [hs]; simp)
  refine ⟨{ currentModel := some
              { m with theElements := foldAdd m.theElements (entityList sf.toTree),
                       lattice := m.lattice ++ occList sf.toTree },
            frameStack := SequenceFrame.AppendFrame top sf.toTree :: rest },
          { m with theElements := foldAdd m.theElements (entityList sf.toTree),
                   lattice := m.lattice ++ occList sf.toTree },
          s2, m2, ?_, rfl, hrun2, hm2, by simp, ?_, rfl⟩
  · simp only [AppendFrame, hm, htr, hs]
  · rw [hlat2]
    simp [occList]

/-- Witness for C5: splicing a concrete two-occurrence sub-frame into a fresh
model yields the same lattice as the direct replay. -/
theorem appendFrame_refines_replay_witness :
    ∃ s1 m1 s2 m2,
      AppendFrame exampleSubframe (initState 0) = some s1 ∧ s1.currentModel = some m1
      ∧ runTrace ((occFrames exampleSubframe.toTree).map Command.appendCF) (initState 0) = some s2
      ∧ s2.currentModel = some m2
      ∧ m1.lattice = [] ++ occList exampleSubframe.toTree
      ∧ m2.lattice = m1.lattice
      ∧ s1.frameStack = SequenceFrame.AppendFrame ⟨0, "GLOBAL", []⟩ exampleSubframe.toTree :: [] :=
  appendFrame_refines_replay (initState 0)
    { rootId := 0, theElements := [], lattice := [], blMap := [] }
    ⟨0, "GLOBAL", []⟩ [] exampleSubframe rfl rfl (by decide)

/-- Claim C6 (amended): MEExtractor::ActOn always registers the visited
entity; a plain sequence frame is registry-only with no lattice effect and no
error; a component-occurrence carrying an instance has the occurrence and the
instance registered and the occurrence appended to the lattice; but a
component-occurrence carrying no instance makes the visit fail (the component
access is unguarded), instead of being appended with the instance skipped. -/
theorem actOn_cases (repo lat : List EntityId) :
    (∀ fId nm cs, MEExtractorActOn repo lat (LatticeFrame.seq fId nm cs)
        = some (ElementRepository.Add repo fId, lat))
    ∧ (∀ cfId c q, MEExtractorActOn repo lat (LatticeFrame.comp cfId (some c) q)
        = some (ElementRepository.Add (ElementRepository.Add repo cfId) c, lat ++ [cfId]))
    ∧ (∀ cfId q, MEExtractorActOn repo lat (LatticeFrame.comp cfId none q) = none) :=
  ⟨fun _ _ _ => rfl, fun _ _ _ => rfl, fun _ _ => rfl⟩

/-- Counterexample to C6 as stated: visiting a component-occurrence that
carries no component instance does not register the occurrence and move on;
the visit has no defined result at all. -/
theorem actOn_missing_component_counterexample :
    MEExtractorActOn [] [] (LatticeFrame.comp 0 none 0) = none := rfl

/-- Amended result for C7: the worked scenario produces the claimed lattice
[driftOcc0, driftOcc1, Q1] with stored indices 0, 1, 2 and root arc length
7/2, but the Entity Registry holds the seven entities
[driftOcc0, drift0, F1, driftOcc1, drift1, Q1, Q1-component] in registration
order: the occurrence wrappers and their component instances are registered
separately, and the root frame is never registered. -/
theorem scenario_result :
    (runTrace scenarioTrace (initState 0)).bind GetModel
      = some ({ globalFrame := LatticeFrame.seq 0 ("GLOBAL")
                  [LatticeFrame.comp 2 (some 1) 2,
                   LatticeFrame.seq 3 ("F1")
                     [LatticeFrame.comp 5 (some 4) (3 / 2), LatticeFrame.comp 6 (some 7) 0]],
                theElements := [2, 1, 3, 5, 4, 6, 7],
                lattice := [2, 5, 6],
                blMap := [(6, 2), (5, 1), (2, 0)] },
              { currentModel := none, frameStack := [] })
    ∧ blLookup [(6, 2), (5, 1), (2, 0)] 2 = some 0
    ∧ blLookup [(6, 2), (5, 1), (2, 0)] 5 = some 1
    ∧ blLookup [(6, 2), (5, 1), (2, 0)] 6 = some 2
    ∧ GetGeometryLength (LatticeFrame.seq 0 ("GLOBAL")
        [LatticeFrame.comp 2 (some 1) 2,
         LatticeFrame.seq 3 ("F1")
           [LatticeFrame.comp 5 (some 4) (3 / 2), LatticeFrame.comp 6 (some 7) 0]]) = 7 / 2 := by
  refine ⟨rfl, rfl, rfl, rfl, ?_⟩
  norm_num [GetGeometryLength, geomLengthList]

/-- Counterexample to C7 as stated: the registry after the scenario has seven
entries, not five, and does not contain the root frame (entity 0). -/
theorem scenario_registry_counterexample :
    ((runTrace scenarioTrace (initState 0)).bind
        (fun s => (GetModel s).map Prod.fst)).map
      (fun fm => (fm.theElements.length, fm.theElements.contains 0))
    = some (7, false) := by
  decide

theorem runCmd_elements_nodup {c : Command} {s0 s1 : ConstructorState}
    (h : runCmd c s0 = some s1)
    (hn : ∀ m, s0.currentModel = some m → m.theElements.Nodup) :
    ∀ m, s1.currentModel = some m → m.theElements.Nodup := by
  cases c with
  | newFrame sf =>
    cases hm : s0.currentModel with
    | none => simp [runCmd, NewFrame, hm] at h
    | some m =>
      simp only [runCmd, NewFrame, hm] at h
      cases h
      intro m1 hm1
      cases hm1
      exact Add_nodup (hn m hm) sf.fId
  | endFrame =>
    cases hs : s0.frameStack with
    | nil => simp [runCmd, EndFrame, hs] at h
    | cons cf rest =>
      cases rest with
      | nil => simp [runCmd, EndFrame, hs] at h
      | cons top rest2 =>
        simp only [runCmd, EndFrame, hs] at h
        cases h
        intro m1 hm1
        exact hn m1 hm1
  | appendCF cf =>
    cases hm : s0.currentModel with
    | none => simp [runCmd, AppendComponentFrame, hm] at h
    | some m =>
      cases hs : s0.frameStack with
      | nil => simp [runCmd, AppendComponentFrame, hm, hs] at h
      | cons top rest =>
        simp only [runCmd, AppendComponentFrame, hm, hs] at h
        cases h
        intro m1 hm1
        cases hm1
        cases hcc : cf.component with
        | none => simpa [hcc] using Add_nodup (hn m hm) cf.cfId
        | some comp => simpa [hcc] using Add_nodup (Add_nodup (hn m hm) cf.cfId) comp
  | appendDrift di ci d =>
    cases hm : s0.currentModel with
    | none => simp [runCmd, AppendDrift, AppendComponentFrame, hm] at h
    | some m =>
      cases hs : s0.frameStack with
      | nil => simp [runCmd, AppendDrift, AppendComponentFrame, hm, hs] at h
      | cons top rest =>
        simp only [runCmd, AppendDrift, AppendComponentFrame, hm, hs] at h
        cases h
        intro m1 hm1
        cases hm1
        exact Add_nodup (Add_nodup (hn m hm) ci) di
  | appendSub sf =>
    cases hm : s0.currentModel with
    | none => simp [runCmd, AppendFrame, hm] at h
    | some m =>
      cases ht : traverseME sf.toTree m.theElements m.lattice with
      | none => simp [runCmd, AppendFrame, hm, ht] at h
      | some p =>
        cases hs : s0.frameStack with
        | nil => simp [runCmd, AppendFrame, hm, ht, hs] at h
        | cons top rest =>
          obtain ⟨hwc, hp⟩ := traverseME_some_eq ht
          subst hp
          simp only [runCmd, AppendFrame, hm, ht, hs] at h
          cases h
          intro m1 hm1
          cases hm1
          exact foldAdd_nodup (entityList sf.toTree) (hn m hm)
  | addElement a =>
    cases hm : s0.currentModel with
    | none => simp [runCmd, AddModelElement, hm] at h
    | some m =>
      simp only [runCmd, AddModelElement, hm] at h
      cases h
      intro m1 hm1
      cases hm1
      exact Add_nodup (hn m hm) a

theorem runTrace_elements_nodup : ∀ (tr : List Command) (s0 s1 : ConstructorState),
    runTrace tr s0 = some s1 → (∀ m, s0.currentModel = some m → m.theElements.Nodup) →
    ∀ m, s1.currentModel = some m → m.theElements.Nodup := by
  intro tr
  induction tr with
  | nil =>
    intro s0 s1 h hn
    cases h
    exact hn
  | cons c t ih =>
    intro s0 s1 h hn
    simp only [runTrace] at h
    cases hc : runCmd c s0 with
    | none => rw [hc] at h; exact absurd h (by simp)
    | some s2 =>
      rw [hc] at h
      exact ih s2 s1 h (runCmd_elements_nodup hc hn)

/-- Claim C8: in every construction run the Entity Registry holds each
distinct registered entity exactly once (its entry list has no duplicates, so
its size is the number of distinct entities registered), no matter how many
occurrences reference a shared component instance, and re-registering an
entity already present is a silent no-op. -/
theorem registry_dedup (tr : List Command) (r : EntityId) (m : AcceleratorModel)
    (h : (runTrace tr (initState r)).bind ConstructorState.currentModel = some m) :
    m.theElements.Nodup
      ∧ ∀ e, e ∈ m.theElements → ElementRepository.Add m.theElements e = m.theElements := by
  cases hr : runTrace tr (initState r) with
  | none => rw [hr] at h; exact absurd h (by simp)
  | some s =>
    rw [hr] at h
    simp only [Option.some_bind] at h
    have h0 : (initState r).currentModel =
        some { rootId := r, theElements := [], lattice := [], blMap := [] } := rfl
    refine ⟨runTrace_elements_nodup tr (initState r) s hr (fun m0 hm0 => ?_) m h,
            fun e he => Add_of_mem he⟩
    rw [h0] at hm0
    cases hm0
    simp

/-- Witness for C8: appending two occurrences sharing component 3 leaves the
registry [2, 3, 4] duplicate-free, and re-adding any member changes nothing. -/
theorem registry_dedup_witness :
    List.Nodup [2, 3, 4]
      ∧ ∀ e, e ∈ [2, 3, 4] → ElementRepository.Add [2, 3, 4] e = [2, 3, 4] :=
  registry_dedup [Command.appendCF ⟨2, some 3, 1⟩, Command.appendCF ⟨4, some 3, 1⟩] 0
    { rootId := 0, theElements := [2, 3, 4], lattice := [2, 4], blMap := [(4, 1), (2, 0)] }
    rfl

/-- Claim C9: NewModel, called at any time (also mid-construction), discards
any model in progress, drains the open-frame stack, creates a fresh model
whose global frame is a fresh root named GLOBAL, and pushes that root, so
that afterwards the stack holds exactly the root and the root is the model's
global frame.  The hypothesis only rules out the unreachable states that have
no model yet a non-empty stack. -/
theorem newModel_fresh_root (s : ConstructorState) (r : EntityId)
    (h : s.currentModel = none → s.frameStack = []) :
    NewModel r s =
      { currentModel := some { rootId := r, theElements := [], lattice := [], blMap := [] },
        frameStack := [{ fId := r, fname := "GLOBAL", children := [] }] } := by
  cases hm : s.currentModel with
  | some m => simp [NewModel, hm]
  | none => simp [NewModel, hm, h hm]

/-- Witness for C9: NewModel in the middle of a construction (a model with
content and a two-deep stack) resets to the fresh model and the lone root. -/
theorem newModel_fresh_root_witness :
    NewModel 4 { currentModel := some { rootId := 9, theElements := [9, 8], lattice := [8],
                                        blMap := [(8, 0)] },
                 frameStack := [⟨8, "X", []⟩, ⟨9, "GLOBAL", []⟩] } =
      { currentModel := some { rootId := 4, theElements := [], lattice := [], blMap := [] },
        frameStack := [{ fId := 4, fname := "GLOBAL", children := [] }] } :=
  newModel_fresh_root
    { currentModel := some { rootId := 9, theElements := [9, 8], lattice := [8],
                             blMap := [(8, 0)] },
      frameStack := [⟨8, "X", []⟩, ⟨9, "GLOBAL", []⟩] }
    4 (fun hc => absurd hc (by simp))

/-- Claim C10: AddModelElement and ReportStatistics dereference the model
pointer without any guard: with no model in progress (in particular in the
state GetModel leaves behind, before the next NewModel) they reach the null
pointer and fail, while under the model-in-progress precondition (with the
stack non-empty, as in every reachable in-progress state) both are safe. -/
theorem unguarded_model_access (s : ConstructorState) (e : EntityId) :
    (s.currentModel = none → AddModelElement e s = none ∧ ReportStatistics s = none)
    ∧ (∀ fm s2, GetModel s = some (fm, s2) →
        AddModelElement e s2 = none ∧ ReportStatistics s2 = none)
    ∧ (∀ m, s.currentModel = some m → s.frameStack ≠ [] →
        (AddModelElement e s).isSome ∧ (ReportStatistics s).isSome) := by
  refine ⟨?_, ?_, ?_⟩
  · intro hm
    exact ⟨by simp [AddModelElement, hm], by simp [ReportStatistics, hm]⟩
  · intro fm s2 hg
    have hs2 : s2 = { currentModel := none, frameStack := [] } := by
      cases hs : s.frameStack with
      | nil => simp [GetModel, hs] at hg
      | cons top rest =>
        cases hm : s.currentModel with
        | none => simp [GetModel, hs, hm] at hg
        | some m =>
          cases rest with
          | cons a b => simp [GetModel, hs, hm] at hg
          | nil =>
            simp only [GetModel, hs, hm] at hg
            exact (Prod.mk.injEq _ _ _ _ ▸ (Option.some.inj hg)).2.symm
    rw [hs2]
    exact ⟨rfl, rfl⟩
  · intro m hm hne
    refine ⟨by simp [AddModelElement, hm], ?_⟩
    obtain ⟨root, hroot⟩ := Option.isSome_iff_exists.1 (List.getLast?_isSome.2 hne)
    simp [ReportStatistics, hm, hroot]

/-- Witness for C10: on the cleared state both operations fail; on the fresh
constructor state both succeed. -/
theorem unguarded_model_access_witness :
    (AddModelElement 5 { currentModel := none, frameStack := [] } = none
      ∧ ReportStatistics { currentModel := none, frameStack := [] } = none)
    ∧ ((AddModelElement 5 (initState 0)).isSome ∧ (ReportStatistics (initState 0)).isSome) :=
  ⟨(unguarded_model_access { currentModel := none, frameStack := [] } 5).1 rfl,
   (unguarded_model_access (initState 0) 5).2.2
     { rootId := 0, theElements := [], lattice := [], blMap := [] } rfl
     (fun hc => absurd hc (by simp [initState, NewModel]))⟩

end Merlin
